import Mathlib

/-!
Verification of the return-aggregation core of the `showmemsci` repository
(`src/plots/plot_heatmap.py`, `src/plots/plot_long-term.py`) and the
return-interval binning of `src/plots/plot_returns-one.py`.

The aggregator works on an ordered annual return series `r[0..Y-1]` of
simple fractional returns (pandas `Series` of floats).  We embed the
series as `List ℚ` and the two pandas pipelines

    one_plus.rolling(window=w, min_periods=w).apply(lambda x: x.prod()).shift(-(w-1)).sub(1)
    one_plus.rolling(window=w, min_periods=w).apply(lambda x: x.prod() ** (1 / w)).shift(-(w-1)).sub(1)

as `Option`-valued cell functions: `none` models a pandas `NaN` cell
(insufficient window from `min_periods`, rows shifted past the end, or a
numpy `nan` from a negative base raised to a non-integral power).  Exact
real arithmetic stands in for IEEE floats, as in the specification.
-/

/-- Embedding of the pandas line `one_plus = returns["Return"] + 1`. -/
def one_plus (r : List ℚ) : List ℚ := r.map (· + 1)

/-- Embedding of `xs.rolling(window=w, min_periods=w).apply(lambda x: x.prod(), raw=True)`
evaluated at row `j`: the product of the `w` entries ending at row `j`, or `NaN`
(`none`) when fewer than `w` observations are available or row `j` does not exist. -/
def rollingProd (xs : List ℚ) (w j : ℕ) : Option ℚ :=
  if w ≤ j + 1 ∧ j < xs.length then
    some (((xs.drop (j + 1 - w)).take w).prod)
  else none

/-- The product `Π_{k=i}^{i+h-1} (1 + r[k])` as the code forms it: a window of
`h` consecutive entries of `one_plus r` starting at row `i`. -/
def windowProd (r : List ℚ) (i h : ℕ) : ℚ :=
  (((one_plus r).drop i).take h).prod

/-- Embedding of the `returns_tot[f"Return_{h}"]` column of `plot_heatmap.py`
(lines 62-67), read at row `i` for holding length `w = h + 1`:
`one_plus.rolling(window=w, min_periods=w).apply(lambda x: x.prod(), raw=True).shift(-(w-1)).sub(1)`.
`shift(-(w-1))` makes row `i` read the rolling value at row `i + (w-1)`. -/
def returns_tot (r : List ℚ) (i w : ℕ) : Option ℚ :=
  if 1 ≤ w then
    (rollingProd (one_plus r) w (i + (w - 1))).map (fun p => p - 1)
  else none

/-- Embedding of the numpy float power `p ** (1 / w)` appearing in the rolling
apply of `returns_avg` (line 57).  numpy returns `nan` exactly when the base is
negative and the exponent is non-integral; `1 / w` is integral only for `w = 1`. -/
noncomputable def powFrac (p : ℚ) (w : ℕ) : Option ℝ :=
  if p < 0 ∧ 2 ≤ w then none else some ((p : ℝ) ^ ((w : ℝ)⁻¹))

/-- Embedding of the `returns_avg[f"Return_{h}"]` column of `plot_heatmap.py`
(lines 55-60), read at row `i` for holding length `w = h + 1`:
`one_plus.rolling(window=w, min_periods=w).apply(lambda x: x.prod() ** (1 / w), raw=True).shift(-(w-1)).sub(1)`.
The identical pipeline appears in `plot_long-term.py` lines 25-31. -/
noncomputable def returns_avg (r : List ℚ) (i w : ℕ) : Option ℝ :=
  if 1 ≤ w then
    (rollingProd (one_plus r) w (i + (w - 1))).bind
      (fun p => (powFrac p w).map (fun y => y - 1))
  else none

/-- The specification's total-return formula, written from its words:
`total(i,h) = Π_{k=i}^{i+h-1} (1 + r[k]) − 1`. -/
def spec_total (r : List ℚ) (i h : ℕ) : ℚ :=
  (Finset.range h).prod (fun k => 1 + r.getD (i + k) 0) - 1

/-- The specification's annualized-return formula, written from its words:
`annualized(i,h) = (Π_{k=i}^{i+h-1} (1 + r[k]))^(1/h) − 1`. -/
noncomputable def spec_annualized (r : List ℚ) (i h : ℕ) : ℝ :=
  ((Finset.range h).prod (fun k => 1 + (r.getD (i + k) 0 : ℝ))) ^ ((h : ℝ)⁻¹) - 1

/-- The eleven finite bin edges of `plot_returns-one.py` line 85:
`bins = [-np.inf, -0.5, -0.4, -0.3, -0.2, -0.1, 0, 0.1, 0.2, 0.3, 0.4, 0.5, np.inf]`
without the two infinite end points. -/
def cutBins : List ℚ :=
  [-(1/2), -(2/5), -(3/10), -(1/5), -(1/10), 0, 1/10, 1/5, 3/10, 2/5, 1/2]

/-- Embedding of `pd.cut(returns["Return"], bins=bins, right=False)` membership:
with `right=False` every interval is closed on the left and open on the right.
Interval `j` (for `j < 12`) runs from edge `j` to edge `j+1` of the thirteen
edges `-∞, cutBins[0], ..., cutBins[10], +∞`; the lower test is vacuous for
`j = 0` and the upper test is vacuous for `j = 11`. -/
def inBin (j : ℕ) (x : ℚ) : Bool :=
  (decide (j = 0) || decide (cutBins.getD (j - 1) 0 ≤ x)) &&
  (decide (11 ≤ j) || decide (x < cutBins.getD j 0))

lemma windowProd_spec (r : List ℚ) :
    ∀ h i, i + h ≤ r.length →
      windowProd r i h = (Finset.range h).prod (fun k => 1 + r.getD (i + k) 0) := by
  intro h
  induction h with
  | zero => intro i _; simp [windowProd]
  | succ n ih =>
    intro i hle
    have hi : i < r.length := by omega
    have hi' : i < (one_plus r).length := by simpa [one_plus] using hi
    have hdrop : (one_plus r).drop i = (one_plus r)[i] :: (one_plus r).drop (i + 1) :=
      List.drop_eq_getElem_cons hi'
    have hget : (one_plus r)[i] = r.getD i 0 + 1 := by
      simp [one_plus, List.getElem?_eq_getElem hi]
    have ihs := ih (i + 1) (by omega)
    simp only [windowProd] at ihs ⊢
    rw [hdrop, List.take_succ_cons, List.prod_cons, hget, ihs,
      Finset.prod_range_succ']
    have hcomm : r.getD i 0 + 1 = 1 + r.getD (i + 0) 0 := by
      rw [Nat.add_zero]; ring
    rw [mul_comm, hcomm]
    congr 1
    refine Finset.prod_congr rfl (fun k _ => ?_)
    have : i + 1 + k = i + (k + 1) := by omega
    rw [this]

/-- Holding lengths `1 ≤ w` with enough trailing history produce a defined
total-return cell equal to the window product minus one. -/
lemma returns_tot_eq (r : List ℚ) (i w : ℕ) (hw : 1 ≤ w) (hle : i + w ≤ r.length) :
    returns_tot r i w = some (windowProd r i w - 1) := by
  have hj : i + (w - 1) + 1 - w = i := by omega
  have hlen : i + (w - 1) < (one_plus r).length := by
    simp only [one_plus, List.length_map]; omega
  simp only [returns_tot, if_pos hw, rollingProd, windowProd]
  rw [if_pos ⟨by omega, hlen⟩, hj]
  rfl

/-- Holding lengths `1 ≤ w` with enough trailing history produce a defined
annualized cell unless the window product is negative with `w ≥ 2`. -/
lemma returns_avg_eq (r : List ℚ) (i w : ℕ) (hw : 1 ≤ w) (hle : i + w ≤ r.length) :
    returns_avg r i w =
      (powFrac (windowProd r i w) w).map (fun y => y - 1) := by
  have hj : i + (w - 1) + 1 - w = i := by omega
  have hlen : i + (w - 1) < (one_plus r).length := by
    simp only [one_plus, List.length_map]; omega
  simp only [returns_avg, if_pos hw, rollingProd, windowProd]
  rw [if_pos ⟨by omega, hlen⟩, hj]
  rfl

/-- C1: For every annual return series `r[0..Y-1]`, every start index `i` and
every holding length `h` with `i + h ≤ Y` (and `h ≥ 1`, the lengths the code
iterates), the total-return cell computed by the aggregator equals the
compounded product: `total(i,h) = Π_{k=i}^{i+h-1} (1 + r[k]) − 1`. -/
theorem total_eq_compounded_product (r : List ℚ) (i h : ℕ)
    (hh : 1 ≤ h) (hle : i + h ≤ r.length) :
    returns_tot r i h = some (spec_total r i h) := by
  rw [returns_tot_eq r i h hh hle, spec_total, windowProd_spec r h i hle]

theorem total_eq_compounded_product_witness :
    returns_tot [1/10, 1/5] 0 2 = some (spec_total [1/10, 1/5] 0 2) :=
  total_eq_compounded_product [1/10, 1/5] 0 2 (by decide) (by decide)

lemma cells_none_of_overrun (r : List ℚ) (i h : ℕ) (hgt : r.length < i + h) :
    returns_tot r i h = none ∧ returns_avg r i h = none := by
  by_cases hw : 1 ≤ h
  · have hcond : ¬(h ≤ i + (h - 1) + 1 ∧ i + (h - 1) < (one_plus r).length) := by
      simp only [one_plus, List.length_map]
      omega
    constructor
    · simp [returns_tot, hw, rollingProd, hcond]
    · simp [returns_avg, hw, rollingProd, hcond]
  · constructor <;> simp [returns_tot, returns_avg, hw]

lemma returns_tot_inv (r : List ℚ) (i h : ℕ) (t : ℚ)
    (ht : returns_tot r i h = some t) :
    1 ≤ h ∧ i + h ≤ r.length ∧ t = windowProd r i h - 1 := by
  by_cases hw : 1 ≤ h
  · by_cases hle : i + h ≤ r.length
    · refine ⟨hw, hle, ?_⟩
      rw [returns_tot_eq r i h hw hle] at ht
      exact (Option.some_injective _ ht).symm
    · rw [(cells_none_of_overrun r i h (by omega)).1] at ht
      exact absurd ht (by simp)
  · simp [returns_tot, hw] at ht

lemma returns_avg_inv (r : List ℚ) (i h : ℕ) (a : ℝ)
    (ha : returns_avg r i h = some a) :
    1 ≤ h ∧ i + h ≤ r.length ∧ ¬(windowProd r i h < 0 ∧ 2 ≤ h) ∧
      a = ((windowProd r i h : ℚ) : ℝ) ^ ((h : ℝ)⁻¹) - 1 := by
  by_cases hw : 1 ≤ h
  · by_cases hle : i + h ≤ r.length
    · rw [returns_avg_eq r i h hw hle, powFrac] at ha
      by_cases hneg : windowProd r i h < 0 ∧ 2 ≤ h
      · rw [if_pos hneg] at ha
        exact absurd ha (by simp)
      · rw [if_neg hneg] at ha
        exact ⟨hw, hle, hneg, (Option.some_injective _ (by simpa using ha)).symm⟩
    · rw [(cells_none_of_overrun r i h (by omega)).2] at ha
      exact absurd ha (by simp)
  · simp [returns_avg, hw] at ha

/-- C2: For every annual return series, start index `i` and holding length
`h ≥ 1` with `i + h ≤ Y`, whenever the geometric-mean expression denotes a real
number (window product nonnegative, or `h = 1` where the exponent is integral),
the annualized cell equals `(Π_{k=i}^{i+h-1} (1 + r[k]))^(1/h) − 1`. -/
theorem annualized_eq_geometric_mean (r : List ℚ) (i h : ℕ)
    (hh : 1 ≤ h) (hle : i + h ≤ r.length)
    (hdom : 0 ≤ windowProd r i h ∨ h = 1) :
    returns_avg r i h = some (spec_annualized r i h) := by
  have hnneg : ¬(windowProd r i h < 0 ∧ 2 ≤ h) := by
    rcases hdom with hp | h1
    · intro hc; exact absurd hp (not_le.mpr hc.1)
    · intro hc; omega
  rw [returns_avg_eq r i h hh hle, powFrac, if_neg hnneg]
  simp only [Option.map_some']
  congr 1
  rw [spec_annualized, windowProd_spec r h i hle]
  push_cast
  rfl

theorem annualized_eq_geometric_mean_witness :
    returns_avg [3/10] 0 1 = some (spec_annualized [3/10] 0 1) :=
  annualized_eq_geometric_mean [3/10] 0 1 (by norm_num) (by simp) (Or.inr rfl)

/-- C3: For every annual return series of length `Y` and every pair `(i, h)`
with `i + h > Y`, both the total-return and the annualized-return cell are
absent (`none`, the embedding of `NaN`); the cell functions are total, so no
error is ever raised for such a request. -/
theorem insufficient_history_cells_absent (r : List ℚ) (i h : ℕ)
    (hgt : r.length < i + h) :
    returns_tot r i h = none ∧ returns_avg r i h = none :=
  cells_none_of_overrun r i h hgt

theorem insufficient_history_cells_absent_witness :
    returns_tot [7/10] 0 2 = none ∧ returns_avg [7/10] 0 2 = none :=
  insufficient_history_cells_absent [7/10] 0 2 (by norm_num)

/-- C4: For every annual return series in which no year has `r = -1` and every
valid start index `i`, the one-year cells reproduce the input:
`total(i,1) = r[i]` and `annualized(i,1) = r[i]`. -/
theorem one_year_cells_reproduce_input (r : List ℚ) (i : ℕ)
    (_hnl : ∀ k, k < r.length → r.getD k 0 ≠ -1) (hi : i < r.length) :
    returns_tot r i 1 = some (r.getD i 0) ∧
      returns_avg r i 1 = some ((r.getD i 0 : ℚ) : ℝ) := by
  have h1 : i + 1 ≤ r.length := hi
  have hwp : windowProd r i 1 = 1 + r.getD i 0 := by
    rw [windowProd_spec r 1 i h1]
    simp
  constructor
  · rw [returns_tot_eq r i 1 le_rfl h1, hwp]
    norm_num
  · rw [returns_avg_eq r i 1 le_rfl h1, powFrac, if_neg (by norm_num), hwp]
    simp only [Option.map_some', Nat.cast_one, inv_one, Real.rpow_one]
    congr 1
    push_cast
    ring

theorem one_year_cells_reproduce_input_witness :
    returns_tot [1/20] 0 1 = some ((1:ℚ)/20) ∧
      returns_avg [1/20] 0 1 = some (((1:ℚ)/20 : ℚ) : ℝ) :=
  one_year_cells_reproduce_input [1/20] 0
    (by
      intro k hk
      simp only [List.length_cons, List.length_nil] at hk
      have hk0 : k = 0 := by omega
      subst hk0
      norm_num [List.getD])
    (by norm_num)

/-- C5: For every annual return series and every pair `(i, h)` for which both
cells are defined, the definitional round-trip holds:
`total(i,h) = (1 + annualized(i,h))^h − 1`. -/
theorem round_trip_total_annualized (r : List ℚ) (i h : ℕ) (t : ℚ) (a : ℝ)
    (ht : returns_tot r i h = some t) (ha : returns_avg r i h = some a) :
    (t : ℝ) = (1 + a) ^ h - 1 := by
  obtain ⟨hh, hle, hteq⟩ := returns_tot_inv r i h t ht
  obtain ⟨-, -, hnneg, haeq⟩ := returns_avg_inv r i h a ha
  have hpow : (((windowProd r i h : ℚ) : ℝ) ^ ((h : ℝ)⁻¹)) ^ h =
      ((windowProd r i h : ℚ) : ℝ) := by
    by_cases hp : 0 ≤ ((windowProd r i h : ℚ) : ℝ)
    · exact Real.rpow_inv_natCast_pow hp (by omega)
    · have hp' : windowProd r i h < 0 := by
        have := not_le.mp hp
        exact_mod_cast this
      have h1 : h = 1 := by
        rcases Nat.lt_or_ge h 2 with h2 | h2
        · omega
        · exact absurd ⟨hp', h2⟩ hnneg
      subst h1
      simp [Real.rpow_one]
  rw [hteq, haeq]
  push_cast
  rw [add_sub_cancel, hpow]

theorem round_trip_total_annualized_witness :
    (((21 : ℚ)/100 : ℚ) : ℝ) =
      (1 + ((((121 : ℚ)/100 : ℚ) : ℝ) ^ (((2 : ℕ) : ℝ))⁻¹ - 1)) ^ (2 : ℕ) - 1 := by
  refine round_trip_total_annualized [1/10, 1/10] 0 2 (21/100)
    ((((121 : ℚ)/100 : ℚ) : ℝ) ^ (((2 : ℕ) : ℝ))⁻¹ - 1) ?_ ?_
  · rw [returns_tot_eq _ 0 2 (by norm_num) (by norm_num)]
    norm_num [windowProd, one_plus]
  · rw [returns_avg_eq _ 0 2 (by norm_num) (by norm_num)]
    have hwp : windowProd [1/10, 1/10] 0 2 = 121/100 := by
      norm_num [windowProd, one_plus]
    rw [hwp, powFrac, if_neg (by norm_num)]
    rfl

/-- C6: On the input `[0.10, 0.10]` the aggregator yields `total(0,2) = 0.21`
and `annualized(0,2) = 0.10`; on the input `[-0.5, 1.0]` it yields
`total(0,2) = 0` and `annualized(0,2) = 0`.  In the exact-rational embedding
the values hold exactly, subsuming the floating tolerance. -/
theorem concrete_two_year_cells :
    returns_tot [1/10, 1/10] 0 2 = some (21/100) ∧
      returns_avg [1/10, 1/10] 0 2 = some (1/10) ∧
      returns_tot [-(1/2), 1] 0 2 = some 0 ∧
      returns_avg [-(1/2), 1] 0 2 = some 0 := by
  have hwp1 : windowProd [1/10, 1/10] 0 2 = 121/100 := by
    norm_num [windowProd, one_plus]
  have hwp2 : windowProd [-(1/2), 1] 0 2 = 1 := by
    norm_num [windowProd, one_plus]
  refine ⟨?_, ?_, ?_, ?_⟩
  · rw [returns_tot_eq _ 0 2 (by norm_num) (by norm_num), hwp1]
    norm_num
  · rw [returns_avg_eq _ 0 2 (by norm_num) (by norm_num), hwp1, powFrac,
      if_neg (by norm_num)]
    simp only [Option.map_some']
    congr 1
    have h121 : (((121 : ℚ)/100 : ℚ) : ℝ) = ((11 : ℝ)/10) ^ (2 : ℕ) := by norm_num
    rw [h121, Real.pow_rpow_inv_natCast (by norm_num) (by norm_num)]
    norm_num
  · rw [returns_tot_eq _ 0 2 (by norm_num) (by norm_num), hwp2]
    norm_num
  · rw [returns_avg_eq _ 0 2 (by norm_num) (by norm_num), hwp2, powFrac,
      if_neg (by norm_num)]
    simp only [Option.map_some']
    congr 1
    push_cast
    rw [Real.one_rpow]
    norm_num

/-- C7 counterexample: on the series `[-2]` the one-year window at `i = 0`
contains a year with `1 + r = -1 ≤ 0` and has negative window product, yet the
annualized cell is defined (`some (-2)`), not `NaN`: the numpy exponent
`1/1 = 1.0` is integral, so no fractional power of a negative base occurs. -/
theorem negative_unit_window_annualized_defined :
    ((-2 : ℚ) + 1 ≤ 0) ∧ windowProd [-2] 0 1 < 0 ∧
      returns_avg [-2] 0 1 = some (-2) := by
  have hwp : windowProd [-2] 0 1 = -1 := by
    norm_num [windowProd, one_plus]
  refine ⟨by norm_num, by rw [hwp]; norm_num, ?_⟩
  rw [returns_avg_eq _ 0 1 (by norm_num) (by norm_num), hwp, powFrac,
    if_neg (by norm_num)]
  simp only [Option.map_some', Nat.cast_one, inv_one, Real.rpow_one]
  congr 1
  norm_num

/-- C7 amended: for every annual return series and every window of length
`h ≥ 2` (where the exponent `1/h` is fractional) whose product of `1 + r` is
negative, the annualized cell is `NaN`/undefined (`none`); the computation is
total, so no exception is raised. -/
theorem negative_product_fractional_root_nan (r : List ℚ) (i h : ℕ)
    (hh : 2 ≤ h) (hle : i + h ≤ r.length) (hneg : windowProd r i h < 0) :
    returns_avg r i h = none := by
  rw [returns_avg_eq r i h (by omega) hle, powFrac, if_pos ⟨hneg, hh⟩]
  rfl

theorem negative_product_fractional_root_nan_witness :
    returns_avg [-2, 1/2] 0 2 = none := by
  refine negative_product_fractional_root_nan [-2, 1/2] 0 2 (by norm_num)
    (by norm_num) ?_
  norm_num [windowProd, one_plus]

lemma windowProd_eq_zero_of_total_loss (r : List ℚ) (i h k : ℕ)
    (hle : i + h ≤ r.length) (hk1 : i ≤ k) (hk2 : k < i + h)
    (hkv : r.getD k 0 = -1) :
    windowProd r i h = 0 := by
  rw [windowProd_spec r h i hle]
  refine Finset.prod_eq_zero (Finset.mem_range.mpr (show k - i < h by omega)) ?_
  have hik : i + (k - i) = k := by omega
  rw [hik, hkv]
  ring

/-- C8: For every annual return series, any window containing a year with
`r = -1` (total loss) has `total(i,h) = -1`; the `-1` propagates to every
holding length whose window includes that year. -/
theorem total_loss_propagates_total (r : List ℚ) (i h k : ℕ)
    (hh : 1 ≤ h) (hle : i + h ≤ r.length) (hk1 : i ≤ k) (hk2 : k < i + h)
    (hkv : r.getD k 0 = -1) :
    returns_tot r i h = some (-1) := by
  rw [returns_tot_eq r i h hh hle,
    windowProd_eq_zero_of_total_loss r i h k hle hk1 hk2 hkv]
  norm_num

theorem total_loss_propagates_total_witness :
    returns_tot [1/10, -1, 1/5] 0 3 = some (-1) := by
  refine total_loss_propagates_total [1/10, -1, 1/5] 0 3 1 (by norm_num)
    (by norm_num) (by norm_num) (by norm_num) ?_
  norm_num [List.getD]

/-- C10: For every annual return series, any window containing a year with
`r = -1` also has `annualized(i,h) = -1`: the rolling product is `0` and
`0^(1/h) − 1 = -1`, so the annualized cell of a total-loss window is `-1`,
not `NaN`. -/
theorem total_loss_propagates_annualized (r : List ℚ) (i h k : ℕ)
    (hh : 1 ≤ h) (hle : i + h ≤ r.length) (hk1 : i ≤ k) (hk2 : k < i + h)
    (hkv : r.getD k 0 = -1) :
    returns_avg r i h = some (-1) := by
  rw [returns_avg_eq r i h hh hle,
    windowProd_eq_zero_of_total_loss r i h k hle hk1 hk2 hkv, powFrac,
    if_neg (by norm_num)]
  simp only [Option.map_some']
  congr 1
  rw [Rat.cast_zero, Real.zero_rpow (by positivity)]
  norm_num

theorem total_loss_propagates_annualized_witness :
    returns_avg [-1, 3/10] 0 2 = some (-1) := by
  refine total_loss_propagates_annualized [-1, 3/10] 0 2 0 (by norm_num)
    (by norm_num) (by norm_num) (by norm_num) ?_
  norm_num [List.getD]

lemma cutBins_sorted_getD :
    ∀ a, a < 11 → ∀ b, b < 11 → a ≤ b → cutBins.getD a 0 ≤ cutBins.getD b 0 := by
  intro a ha b hb hab
  interval_cases a <;> interval_cases b <;> norm_num [cutBins, List.getD]

lemma inBin_upper_bound (j : ℕ) (x : ℚ) (hj : j < 11) (h : inBin j x = true) :
    x < cutBins.getD j 0 := by
  simp only [inBin, Bool.and_eq_true, Bool.or_eq_true, decide_eq_true_eq] at h
  rcases h.2 with h11 | hlt
  · omega
  · exact hlt

lemma inBin_lower_bound (j : ℕ) (x : ℚ) (hj : 1 ≤ j) (h : inBin j x = true) :
    cutBins.getD (j - 1) 0 ≤ x := by
  simp only [inBin, Bool.and_eq_true, Bool.or_eq_true, decide_eq_true_eq] at h
  rcases h.1 with h0 | hle
  · omega
  · exact hle

lemma inBin_unique (x : ℚ) (j k : ℕ) (hj : j < 12) (hk : k < 12)
    (hbj : inBin j x = true) (hbk : inBin k x = true) : j = k := by
  rcases Nat.lt_trichotomy j k with hlt | heq | hgt
  · exfalso
    have hx1 : x < cutBins.getD j 0 := inBin_upper_bound j x (by omega) hbj
    have hx2 : cutBins.getD (k - 1) 0 ≤ x := inBin_lower_bound k x (by omega) hbk
    have hmono : cutBins.getD j 0 ≤ cutBins.getD (k - 1) 0 :=
      cutBins_sorted_getD j (by omega) (k - 1) (by omega) (by omega)
    linarith
  · exact heq
  · exfalso
    have hx1 : x < cutBins.getD k 0 := inBin_upper_bound k x (by omega) hbk
    have hx2 : cutBins.getD (j - 1) 0 ≤ x := inBin_lower_bound j x (by omega) hbj
    have hmono : cutBins.getD k 0 ≤ cutBins.getD (j - 1) 0 :=
      cutBins_sorted_getD k (by omega) (j - 1) (by omega) (by omega)
    linarith

lemma inBin_of_bounds (j : ℕ) (x : ℚ)
    (hlow : j = 0 ∨ cutBins.getD (j - 1) 0 ≤ x)
    (hup : 11 ≤ j ∨ x < cutBins.getD j 0) : inBin j x = true := by
  simp only [inBin, Bool.and_eq_true, Bool.or_eq_true, decide_eq_true_eq]
  exact ⟨hlow, hup⟩

lemma inBin_exists (x : ℚ) : ∃ j, j < 12 ∧ inBin j x = true := by
  rcases lt_or_le x (-(1/2)) with h0 | h0
  · exact ⟨0, by norm_num,
      inBin_of_bounds 0 x (Or.inl rfl) (Or.inr (by simpa [cutBins] using h0))⟩
  rcases lt_or_le x (-(2/5)) with h1 | h1
  · exact ⟨1, by norm_num, inBin_of_bounds 1 x
      (Or.inr (by simpa [cutBins] using h0)) (Or.inr (by simpa [cutBins] using h1))⟩
  rcases lt_or_le x (-(3/10)) with h2 | h2
  · exact ⟨2, by norm_num, inBin_of_bounds 2 x
      (Or.inr (by simpa [cutBins] using h1)) (Or.inr (by simpa [cutBins] using h2))⟩
  rcases lt_or_le x (-(1/5)) with h3 | h3
  · exact ⟨3, by norm_num, inBin_of_bounds 3 x
      (Or.inr (by simpa [cutBins] using h2)) (Or.inr (by simpa [cutBins] using h3))⟩
  rcases lt_or_le x (-(1/10)) with h4 | h4
  · exact ⟨4, by norm_num, inBin_of_bounds 4 x
      (Or.inr (by simpa [cutBins] using h3)) (Or.inr (by simpa [cutBins] using h4))⟩
  rcases lt_or_le x 0 with h5 | h5
  · exact ⟨5, by norm_num, inBin_of_bounds 5 x
      (Or.inr (by simpa [cutBins] using h4)) (Or.inr (by simpa [cutBins] using h5))⟩
  rcases lt_or_le x (1/10) with h6 | h6
  · exact ⟨6, by norm_num, inBin_of_bounds 6 x
      (Or.inr (by simpa [cutBins] using h5)) (Or.inr (by simpa [cutBins] using h6))⟩
  rcases lt_or_le x (1/5) with h7 | h7
  · exact ⟨7, by norm_num, inBin_of_bounds 7 x
      (Or.inr (by simpa [cutBins] using h6)) (Or.inr (by simpa [cutBins] using h7))⟩
  rcases lt_or_le x (3/10) with h8 | h8
  · exact ⟨8, by norm_num, inBin_of_bounds 8 x
      (Or.inr (by simpa [cutBins] using h7)) (Or.inr (by simpa [cutBins] using h8))⟩
  rcases lt_or_le x (2/5) with h9 | h9
  · exact ⟨9, by norm_num, inBin_of_bounds 9 x
      (Or.inr (by simpa [cutBins] using h8)) (Or.inr (by simpa [cutBins] using h9))⟩
  rcases lt_or_le x (1/2) with h10 | h10
  · exact ⟨10, by norm_num, inBin_of_bounds 10 x
      (Or.inr (by simpa [cutBins] using h9)) (Or.inr (by simpa [cutBins] using h10))⟩
  · exact ⟨11, by norm_num, inBin_of_bounds 11 x
      (Or.inr (by simpa [cutBins] using h10)) (Or.inl le_rfl)⟩

/-- C9: The binning with edges `[-∞, -0.5, -0.4, ..., 0.5, ∞]` and
`right=False` assigns every (finite, here rational) return to exactly one of
the twelve intervals; every bounded interval is half-open left-inclusive
`[left, right)`, so a return exactly on an interior boundary falls in the
interval to its right. -/
theorem binning_partitions_returns :
    (∀ x : ℚ, ∃! j, j < 12 ∧ inBin j x = true) ∧
      (∀ j, j < 11 → inBin (j + 1) (cutBins.getD j 0) = true) := by
  constructor
  · intro x
    obtain ⟨j, hj12, hbin⟩ := inBin_exists x
    exact ⟨j, ⟨hj12, hbin⟩, fun y hy => inBin_unique x y j hy.1 hj12 hy.2 hbin⟩
  · intro j hj
    interval_cases j <;> norm_num [inBin, cutBins, List.getD]

theorem binning_partitions_returns_witness :
    inBin 6 (0 : ℚ) = true := by
  have h := binning_partitions_returns.2 5 (by norm_num)
  simpa [cutBins] using h
